import Mathlib

/-!
Verification of the URL-classification / rewriting engine and the text
sanitizer of `challenge_fetcher/parser.py`.

Strings are modelled as `List Char` (`Str`), so that every operation of the
source (regex matching against compiled patterns, string concatenation,
`str.replace`, `re.sub`) becomes an executable Lean function over character
lists.  Machine behaviour that matters here is purely textual, so no integer
overflow modelling is required.
-/

/-- Character-list model of Python `str`. -/
abbrev Str := List Char

/-- Matches a literal character sequence at the head of the input, returning
the remaining input on success.  This models matching the literal parts of the
compiled regexes (all of which are anchored with `^`, and `re.search` with a
`^`-anchored pattern in non-multiline mode only ever matches at position 0). -/
def matchLit : Str → Str → Option Str
  | [], l => some l
  | _ :: _, [] => none
  | p :: ps, c :: cs => if c = p then matchLit ps cs else none

/-- The literal part of CHALLENGE_URL_REGEX, i.e. the string "problem=" from
parser.py line 17. -/
def problemPat : Str := ['p', 'r', 'o', 'b', 'l', 'e', 'm', '=']

/-- The optional literal group "project/" of RESOURCE_URL_REGEX
(parser.py lines 44-46). -/
def projectPat : Str := ['p', 'r', 'o', 'j', 'e', 'c', 't', '/']

/-- The "resources" alternative of RESOURCE_URL_REGEX, together with the
mandatory "/" that follows the alternation. -/
def resourcesPat : Str := ['r', 'e', 's', 'o', 'u', 'r', 'c', 'e', 's', '/']

/-- The "images" alternative of RESOURCE_URL_REGEX, together with the
mandatory "/" that follows the alternation. -/
def imagesPat : Str := ['i', 'm', 'a', 'g', 'e', 's', '/']

/-- The literal part of ABOUT_URL_REGEX, i.e. the string "about=" from
parser.py line 57. -/
def aboutPat : Str := ['a', 'b', 'o', 'u', 't', '=']

/-- Embeds CHALLENGE_URL_REGEX.search (parser.py line 17):
the url must start with "problem=" followed by at least one digit; the value
is the maximal digit run (the greedy capture group "number").  Python `\d`
also accepts non-ASCII decimal digits; hrefs on the modelled pages are ASCII,
and we model `\d` as ASCII digits. -/
def challenge_match (url : Str) : Option Str :=
  match matchLit problemPat url with
  | none => none
  | some rest =>
    match rest.takeWhile Char.isDigit with
    | [] => none
    | d :: ds => some (d :: ds)

/-- Embeds the "(resources|images)/" part of RESOURCE_URL_REGEX: tries the
"resources" alternative first, then "images", returning the remaining input. -/
def afterDirQ (l : Str) : Option Str :=
  match matchLit resourcesPat l with
  | some r => some r
  | none => matchLit imagesPat l

/-- Embeds the "(.+/)?(?P<filename>.+)" suffix of RESOURCE_URL_REGEX, given
the input remaining after "(project/)?(resources|images)/".  Since `.` does
not match a newline, only the maximal newline-free prefix is reachable.  The
greedy optional group "(.+/)?" consumes up to the last '/' that is preceded by
at least one character and followed by at least one (newline-free) character;
the named group "filename" (the only group the source reads) then captures
everything after it up to the first newline.  If no such '/' exists the
optional group is skipped and "filename" captures the whole newline-free
prefix, which must be non-empty. -/
def lastSlashAux : Str → Option Str
  | [] => none
  | c :: rest =>
    match lastSlashAux rest with
    | some r => some r
    | none => if c = '/' ∧ rest ≠ [] then some rest else none

/-- The value of the "filename" capture group of RESOURCE_URL_REGEX on the
input remaining after the directory prefix, or `none` when the regex cannot
match.  See `lastSlashAux` for the backtracking analysis. -/
def filename_of (r : Str) : Option Str :=
  match r.takeWhile (fun c => c != '\n') with
  | [] => none
  | c :: rest =>
    match lastSlashAux rest with
    | some f => some f
    | none => some (c :: rest)

/-- The "(resources|images)/(.+/)?(?P<filename>.+)" part of
RESOURCE_URL_REGEX. -/
def resourceTail (l : Str) : Option Str :=
  match afterDirQ l with
  | some r => filename_of r
  | none => none

/-- Embeds RESOURCE_URL_REGEX.search (parser.py lines 44-46), returning the
"filename" capture group.  The optional group "(project/)?" is greedy: it is
consumed when present, and on failure of the remainder the engine retries
with the group empty. -/
def resource_match (url : Str) : Option Str :=
  match matchLit projectPat url with
  | some rest =>
    match resourceTail rest with
    | some f => some f
    | none => resourceTail url
  | none => resourceTail url

/-- Python `\w` (word character): alphanumeric or underscore (modelled over
ASCII, as for `\d`). -/
def isWordChar (c : Char) : Bool :=
  c.isAlphanum || c = '_'

/-- Embeds ABOUT_URL_REGEX.search (parser.py line 57): the url must start
with "about=" followed by at least one word character.  The capture group is
never read by the source, so a Bool suffices. -/
def about_match (url : Str) : Bool :=
  match matchLit aboutPat url with
  | none => false
  | some rest =>
    match rest with
    | [] => false
    | c :: _ => isWordChar c

/-- Modelled from the spec: the character set stripped by
`sanitise_file_name`.  The definition of `sanitise_file_name` is referenced
by parser.py line 112 but lives outside the provided sources; the spec (§4.1)
requires stripping, at minimum, path separators, whitespace and characters
reserved on common filesystems, and requires the result to be deterministic
and idempotent. -/
def reservedChar (c : Char) : Bool :=
  c == '/' || c == '\\' || c.isWhitespace || c == '<' || c == '>' ||
  c == ':' || c == '"' || c == '|' || c == '?' || c == '*'

/-- Modelled from the spec: `sanitise_file_name` (called at parser.py
line 112, defined outside the provided sources) strips every character that
is unsafe for a local filesystem path or a Markdown link. -/
def sanitise_file_name (file_name : Str) : Str :=
  file_name.filter (fun c => !(reservedChar c))

/-- Model of a bs4 anchor tag: its href attribute and the list of its
(string) children.  Only the fields the source reads are modelled. -/
structure Link where
  href : Str
  children : List Str

/-- Model of bs4's `Tag.string`: the unique string child if the tag has
exactly one child, and `None` otherwise (empty tag, or several children). -/
def Link.string (link : Link) : Option Str :=
  match link.children with
  | [s] => some s
  | _ => none

/-- Python stringification of an `Optional[str]` inside an f-string:
`None` renders as the literal text "None". -/
def pyStr : Option Str → Str
  | none => ['N', 'o', 'n', 'e']
  | some s => s

/-- The replacement text built at parser.py line 147:
the f-string `[{link.string}]({url})`. -/
def mdLink (link : Link) (url : Str) : Str :=
  ['['] ++ pyStr (Link.string link) ++ [']', '('] ++ url ++ [')']

/-- The two fatal error kinds of `convert_urls_to_markdown`
(parser.py lines 125 and 142). -/
inductive ConvError where
  | keyError (message : Str)
  | notImplementedError (message : Str)
deriving DecidableEq

/-- The text of the KeyError message at parser.py line 125, up to the
interpolated file name. -/
def keyErrorText : Str := "Multiple resources found with the name ".data

/-- The text of the NotImplementedError message at parser.py line 143, up to
the interpolated url. -/
def unknownErrorText : Str := "A URL was found to an unknown resource type: ".data

/-- Python `file_name in remote_content` (dict key membership,
parser.py line 124), with the dict modelled as an insertion-ordered
association list. -/
def hasKey (remote : List (Str × Str)) (k : Str) : Bool :=
  remote.any (fun p => p.1 == k)

/-- One iteration of the loop body of `convert_urls_to_markdown`
(parser.py lines 84-147) on a single anchor tag: classifies the href by the
three regexes in source order and produces either the Markdown replacement
text together with the updated remote-content dictionary, or the raised
error.  The base URLs `challenge_fetcher.scraper.URL_BASE` and
`challenge_fetcher.scraper.CHALLENGE_URL_BASE` live outside the provided
sources; per the spec (§6) they are opaque configuration, so they are taken
as parameters `urlBase` and `cBase`. -/
def processLink (urlBase cBase : Str) (remote : List (Str × Str)) (link : Link) :
    Except ConvError (Str × List (Str × Str)) :=
  let url := link.href
  match challenge_match url with
  | some number => Except.ok (mdLink link (cBase ++ number), remote)
  | none =>
    match resource_match url with
    | some filename =>
      let file_name := sanitise_file_name filename
      let remote_url := urlBase ++ url
      if hasKey remote file_name then
        Except.error (ConvError.keyError (keyErrorText ++ file_name))
      else
        Except.ok (mdLink link (['.', '/'] ++ file_name),
          remote ++ [(file_name, remote_url)])
    | none =>
      if about_match url then
        Except.ok (mdLink link (urlBase ++ url), remote)
      else
        Except.error (ConvError.notImplementedError (unknownErrorText ++ url))

/-- The whole loop of `convert_urls_to_markdown` over the list of anchor tags
(`content.find_all("a")` returns a snapshot list, iterated in document
order), threading the remote-content dictionary and collecting the Markdown
replacement texts.  A raised error aborts the remaining iterations. -/
def convLoop (urlBase cBase : Str) :
    List Link → List (Str × Str) → Except ConvError (List Str × List (Str × Str))
  | [], remote => Except.ok ([], remote)
  | link :: rest, remote =>
    match processLink urlBase cBase remote link with
    | Except.error e => Except.error e
    | Except.ok (repl, remote2) =>
      match convLoop urlBase cBase rest remote2 with
      | Except.error e => Except.error e
      | Except.ok (repls, remoteF) => Except.ok (repl :: repls, remoteF)

/-- Embeds `convert_urls_to_markdown` (parser.py lines 60-154).  The first
component of the result lists the Markdown replacement text of each anchor
tag; the second is the returned dictionary: `None` when no remote content was
found (parser.py lines 149-151), the populated dictionary otherwise. -/
def convert_urls_to_markdown (urlBase cBase : Str) (content : List Link) :
    Except ConvError (List Str × Option (List (Str × Str))) :=
  match convLoop urlBase cBase content [] with
  | Except.error e => Except.error e
  | Except.ok (repls, remote) =>
    Except.ok (repls, if remote.isEmpty then none else some remote)

/-- Whether a link would be classified as a resource reference by the ordered
dispatch of `convert_urls_to_markdown` (it is not a challenge reference, and
RESOURCE_URL_REGEX matches). -/
def isResourceRef (link : Link) : Bool :=
  (challenge_match link.href).isNone && (resource_match link.href).isSome

/-- Embeds `description_text.replace("\n", "  \n")` (parser.py line 176):
each newline becomes two spaces followed by a newline. -/
def nlReplace : Str → Str
  | [] => []
  | c :: rest =>
    if c = '\n' then ' ' :: ' ' :: '\n' :: nlReplace rest
    else c :: nlReplace rest

/-- The literal "\operatorname" checked by the `in` test at
parser.py line 179. -/
def operatornamePat : Str :=
  ['\\', 'o', 'p', 'e', 'r', 'a', 't', 'o', 'r', 'n', 'a', 'm', 'e']

/-- The literal head of the substitution pattern at parser.py line 190:
the text "\operatorname" followed by an opening brace. -/
def operatornameBracePat : Str := operatornamePat ++ ['\x7b']

/-- The literal head of the replacement at parser.py line 200: the text
"\mathop" followed by a brace, then "\text" followed by a brace. -/
def mathopPat : Str :=
  ['\\', 'm', 'a', 't', 'h', 'o', 'p', '\x7b', '\\', 't', 'e', 'x', 't', '\x7b']

/-- Lazy matching of "(.+?)=" : consume at least one non-newline character,
stopping at the first '=' encountered after that, returning the capture and
the remaining input.  `acc` holds the (reversed) characters consumed so far. -/
def findB : Str → Str → Option (Str × Str)
  | _, [] => none
  | acc, c :: rest =>
    if c = '\n' then none
    else if c = '=' ∧ acc ≠ [] then some (acc.reverse, rest)
    else findB (c :: acc) rest

/-- Lazy matching of "(.+?)\}(.+?)=" with full backtracking: the first group
stops at the earliest closing brace (after at least one character) from which
the rest of the pattern can match, growing past that brace otherwise. -/
def findAB : Str → Str → Option (Str × Str × Str)
  | _, [] => none
  | acc, c :: rest =>
    if c = '\n' then none
    else if c = '\x7d' ∧ acc ≠ [] then
      match findB [] rest with
      | some (b, r) => some (acc.reverse, b, r)
      | none => findAB (c :: acc) rest
    else findAB (c :: acc) rest

/-- Attempts to match the substitution pattern
"\\operatorname\{(.+?)\}(.+?)=" of parser.py line 190 at the current
position, returning the two captures and the input remaining after the
match. -/
def matchOpAt (l : Str) : Option (Str × Str × Str) :=
  match matchLit operatornameBracePat l with
  | none => none
  | some rest => findAB [] rest

theorem matchLit_length : ∀ (p l r : Str), matchLit p l = some r → r.length ≤ l.length := by
  intro p
  induction p with
  | nil =>
    intro l r h
    simp only [matchLit] at h
    cases h
    exact Nat.le_refl _
  | cons hd tl ih =>
    intro l r h
    cases l with
    | nil => simp [matchLit] at h
    | cons c cs =>
      simp only [matchLit] at h
      by_cases hc : c = hd
      · rw [if_pos hc] at h
        exact Nat.le_trans (ih cs r h) (Nat.le_succ _)
      · rw [if_neg hc] at h
        exact absurd h (by simp)

theorem findB_length : ∀ (l acc b r : Str), findB acc l = some (b, r) → r.length < l.length := by
  intro l
  induction l with
  | nil => intro acc b r h; simp [findB] at h
  | cons c rest ih =>
    intro acc b r h
    simp only [findB] at h
    by_cases h1 : c = '\n'
    · rw [if_pos h1] at h; exact absurd h (by simp)
    · rw [if_neg h1] at h
      by_cases h2 : c = '=' ∧ acc ≠ []
      · rw [if_pos h2] at h
        cases h
        exact Nat.lt_succ_self _
      · rw [if_neg h2] at h
        exact Nat.lt_trans (ih _ _ _ h) (Nat.lt_succ_self _)

theorem findAB_length : ∀ (l acc a b r : Str), findAB acc l = some (a, b, r) → r.length < l.length := by
  intro l
  induction l with
  | nil => intro acc a b r h; simp [findAB] at h
  | cons c rest ih =>
    intro acc a b r h
    simp only [findAB] at h
    by_cases h1 : c = '\n'
    · rw [if_pos h1] at h; exact absurd h (by simp)
    · rw [if_neg h1] at h
      by_cases h2 : c = '\x7d' ∧ acc ≠ []
      · rw [if_pos h2] at h
        cases hb : findB [] rest with
        | some p =>
          obtain ⟨b', r'⟩ := p
          rw [hb] at h
          have hlt := findB_length rest [] b' r' hb
          cases h
          exact Nat.lt_trans hlt (Nat.lt_succ_self _)
        | none =>
          rw [hb] at h
          exact Nat.lt_trans (ih _ _ _ _ h) (Nat.lt_succ_self _)
      · rw [if_neg h2] at h
        exact Nat.lt_trans (ih _ _ _ _ h) (Nat.lt_succ_self _)

theorem matchOpAt_length : ∀ (l a b r : Str), matchOpAt l = some (a, b, r) → r.length < l.length := by
  intro l a b r h
  simp only [matchOpAt] at h
  cases hm : matchLit operatornameBracePat l with
  | none => rw [hm] at h; exact absurd h (by simp)
  | some rest =>
    rw [hm] at h
    exact Nat.lt_of_lt_of_le (findAB_length rest [] a b r h) (matchLit_length _ _ _ hm)

/-- Embeds `re.sub(pattern, replacement, text)` for the fixed pattern and
replacement of parser.py lines 190-204: scan left to right; at each position
try the pattern; on a match emit the replacement
"\mathop{\text{" ++ A ++ "}}" ++ B ++ "=" and continue after the match,
otherwise keep the character and move one position right. -/
def opSub (l : Str) : Str :=
  match h : matchOpAt l with
  | some (a, b, rest) =>
    mathopPat ++ a ++ ['\x7d', '\x7d'] ++ b ++ ['='] ++ opSub rest
  | none =>
    match l with
    | [] => []
    | c :: rest => c :: opSub rest
termination_by l.length
decreasing_by
  · exact matchOpAt_length _ _ _ _ h
  · simp

/-- Embeds Python substring containment `needle in hay`
(parser.py line 179). -/
def containsSub (needle : Str) : Str → Bool
  | [] => (matchLit needle []).isSome
  | c :: rest =>
    match matchLit needle (c :: rest) with
    | some _ => true
    | none => containsSub needle rest

/-- Embeds `sanitise_tag_text` (parser.py lines 157-206).  The text of the
tag (`description.text`) is taken directly as the input string: first every
newline is replaced by a hard Markdown line break, then, when the workaround
flag is set and the literal "\operatorname" occurs in the text, the
substitution of parser.py line 204 is applied. -/
def sanitise_tag_text (description_text : Str) (github_workaround : Bool) : Str :=
  let t := nlReplace description_text
  if github_workaround && containsSub operatornamePat t then opSub t else t

/-- Formalises the claim wording for the workaround-off behaviour: the text
with every newline replaced by two spaces and a newline, and nothing else
changed.  Stated independently of `nlReplace` (via a fold) so that the
theorem relating them is a genuine refinement. -/
def hardBreakSpec (text : Str) : Str :=
  text.foldr (fun c acc => (if c = '\n' then [' ', ' ', '\n'] else [c]) ++ acc) []

theorem matchLit_self : ∀ (p r : Str), matchLit p (p ++ r) = some r := by
  intro p
  induction p with
  | nil => intro r; rfl
  | cons hd tl ih => intro r; simp [matchLit, ih]

theorem takeWhile_eq_self_of_all (q : Char → Bool) :
    ∀ (l : Str), (∀ c ∈ l, q c = true) → l.takeWhile q = l := by
  intro l
  induction l with
  | nil => intro _; rfl
  | cons c rest ih =>
    intro h
    rw [List.takeWhile_cons_of_pos (h c (List.mem_cons_self c rest))]
    rw [ih (fun x hx => h x (List.mem_cons_of_mem c hx))]

theorem takeWhile_append_all (q : Char → Bool) :
    ∀ (ds suffix : Str), (∀ c ∈ ds, q c = true) →
    (∀ c s', suffix = c :: s' → q c = false) →
    (ds ++ suffix).takeWhile q = ds := by
  intro ds
  induction ds with
  | nil =>
    intro suffix _ hs
    cases suffix with
    | nil => rfl
    | cons c s' =>
      simp only [List.nil_append]
      rw [List.takeWhile_cons_of_neg]
      simp [hs c s' rfl]
  | cons d ds ih =>
    intro suffix hd hs
    simp only [List.cons_append]
    rw [List.takeWhile_cons_of_pos (hd d (List.mem_cons_self d ds))]
    rw [ih suffix (fun x hx => hd x (List.mem_cons_of_mem d hx)) hs]

/-- The claim: file-name sanitization is deterministic (it is a pure
function of its input) and idempotent: applying `sanitise_file_name` to an
already-sanitised name gives it back unchanged. -/
theorem sanitise_file_name_idempotent :
    ∀ (x y : Str), (x = y → sanitise_file_name x = sanitise_file_name y) ∧
      sanitise_file_name (sanitise_file_name x) = sanitise_file_name x := by
  intro x y
  constructor
  · intro h; rw [h]
  · simp [sanitise_file_name, List.filter_filter]

/-- Closed instance of `sanitise_file_name_idempotent` at the name
"plot 1.png" (whose sanitised form "plot1.png" is a fixed point). -/
theorem sanitise_file_name_idempotent_witness :
    (("plot 1.png".data : Str) = "plot 1.png".data →
      sanitise_file_name "plot 1.png".data = sanitise_file_name "plot 1.png".data) ∧
      sanitise_file_name (sanitise_file_name "plot 1.png".data)
        = sanitise_file_name "plot 1.png".data :=
  sanitise_file_name_idempotent "plot 1.png".data "plot 1.png".data

theorem nlReplace_eq_hardBreak : ∀ (text : Str), nlReplace text = hardBreakSpec text := by
  intro text
  induction text with
  | nil => rfl
  | cons c rest ih =>
    by_cases h : c = '\n'
    · simp [nlReplace, hardBreakSpec, h, List.foldr_cons] at *
      exact ih
    · simp [nlReplace, hardBreakSpec, h, List.foldr_cons] at *
      exact ih

/-- The claim: with the workaround flag false, `sanitise_tag_text` replaces
every newline with two spaces followed by a newline and performs no other
transformation (in particular no operator-name rewrite occurs, whatever the
text contains): the result is exactly `hardBreakSpec`, the independent
formalisation of that wording.  Instantiating `text` with "line one\nline
two" yields "line one  \nline two". -/
theorem sanitise_tag_text_no_workaround :
    (∀ text : Str, sanitise_tag_text text false = hardBreakSpec text) ∧
      sanitise_tag_text "line one\nline two".data false = "line one  \nline two".data := by
  constructor
  · intro text
    simp only [sanitise_tag_text, Bool.false_and, if_false]
    exact nlReplace_eq_hardBreak text
  · rfl

theorem matchOpAt_cons_none (c : Char) (l : Str) (h : c ≠ '\\') : matchOpAt (c :: l) = none := by
  simp only [matchOpAt, operatornameBracePat, operatornamePat, List.cons_append, matchLit]
  rw [if_neg h]

theorem opSub_nil : opSub [] = [] := by
  rw [opSub.eq_def]
  split
  · next a b rest heq => cases heq
  · rfl

theorem opSub_cons_of_none (c : Char) (l : Str) (h : matchOpAt (c :: l) = none) :
    opSub (c :: l) = c :: opSub l := by
  rw [opSub.eq_def]
  split
  · next a b rest heq => rw [h] at heq; cases heq
  · rfl

theorem opSub_cons_of_some (l a b rest : Str) (h : matchOpAt l = some (a, b, rest)) :
    opSub l = mathopPat ++ a ++ ['\x7d', '\x7d'] ++ b ++ ['='] ++ opSub rest := by
  rw [opSub.eq_def]
  split
  · next a' b' r' heq =>
    rw [h] at heq
    injection heq with h1
    injection h1 with ha h2
    injection h2 with hb hr
    rw [ha, hb, hr]
  · next heq => rw [h] at heq; cases heq

theorem challenge_match_project (rest : Str) : challenge_match (projectPat ++ rest) = none := rfl

theorem challenge_match_resources (rest : Str) : challenge_match (resourcesPat ++ rest) = none := rfl

theorem challenge_match_images (rest : Str) : challenge_match (imagesPat ++ rest) = none := rfl

theorem challenge_match_about (rest : Str) : challenge_match (aboutPat ++ rest) = none := rfl

theorem resource_match_about (rest : Str) : resource_match (aboutPat ++ rest) = none := rfl

theorem about_match_cons (c : Char) (w' : Str) :
    about_match (aboutPat ++ c :: w') = isWordChar c := by
  simp [about_match, matchLit_self]

/-- The claim: a href of the form "problem=" followed by one or more decimal
digits is rewritten to a Markdown link whose target is the challenge base URL
concatenated with exactly the captured digit run, character for character
(the digit characters are never converted to a number, so leading zeros
survive).  `suffix` is whatever follows the digits in the href; the digit run
captured by the greedy `\d+` is the maximal one, so `suffix` must not start
with a digit. -/
theorem challenge_link_target (urlBase cBase : Str) (remote : List (Str × Str))
    (children : List Str) (ds suffix : Str)
    (hne : ds ≠ []) (hdig : ∀ c ∈ ds, c.isDigit = true)
    (hsuf : ∀ c s', suffix = c :: s' → c.isDigit = false) :
    processLink urlBase cBase remote ⟨problemPat ++ (ds ++ suffix), children⟩ =
      Except.ok (mdLink ⟨problemPat ++ (ds ++ suffix), children⟩ (cBase ++ ds), remote) := by
  have hc : challenge_match (problemPat ++ (ds ++ suffix)) = some ds := by
    simp only [challenge_match, matchLit_self]
    rw [takeWhile_append_all Char.isDigit ds suffix hdig hsuf]
    cases ds with
    | nil => exact absurd rfl hne
    | cons d ds' => rfl
  simp only [processLink, hc]

/-- Closed instance of `challenge_link_target` at the href "problem=007"
(with a text child "x"), exhibiting the preserved leading zeros. -/
theorem challenge_link_target_witness :
    (['0', '0', '7'] : Str) ≠ [] ∧
    processLink "https://projecteuler.net/".data "https://projecteuler.net/problem=".data []
        ⟨problemPat ++ (['0', '0', '7'] ++ []), [['x']]⟩ =
      Except.ok (mdLink ⟨problemPat ++ (['0', '0', '7'] ++ []), [['x']]⟩
        ("https://projecteuler.net/problem=".data ++ ['0', '0', '7']), []) :=
  ⟨by decide,
    challenge_link_target "https://projecteuler.net/".data
      "https://projecteuler.net/problem=".data [] [['x']] ['0', '0', '7'] []
      (by decide) (by decide) (fun _ _ h => nomatch h)⟩

/-- The claim: a href of the form "about=" followed by a word character (the
head of the one-or-more word-character run matched by `\w+`) is rewritten to
a Markdown link whose target is the remote base URL concatenated with the
original href, and the remote-content dictionary is left unchanged (no
manifest entry is added). -/
theorem about_link_target (urlBase cBase : Str) (remote : List (Str × Str))
    (children : List Str) (c : Char) (w' : Str) (hw : isWordChar c = true) :
    processLink urlBase cBase remote ⟨aboutPat ++ c :: w', children⟩ =
      Except.ok (mdLink ⟨aboutPat ++ c :: w', children⟩ (urlBase ++ (aboutPat ++ c :: w')),
        remote) := by
  have hch : challenge_match (aboutPat ++ c :: w') = none := challenge_match_about _
  have hr : resource_match (aboutPat ++ c :: w') = none := resource_match_about _
  have ha : about_match (aboutPat ++ c :: w') = true := by
    rw [about_match_cons, hw]
  simp only [processLink, hch, hr, ha, if_true]

/-- Closed instance of `about_link_target` at the href "about=news". -/
theorem about_link_target_witness :
    isWordChar 'n' = true ∧
    processLink "https://projecteuler.net/".data "C".data [(['k'], ['v'])]
        ⟨aboutPat ++ 'n' :: "ews".data, [['N']]⟩ =
      Except.ok (mdLink ⟨aboutPat ++ 'n' :: "ews".data, [['N']]⟩
        ("https://projecteuler.net/".data ++ (aboutPat ++ 'n' :: "ews".data)),
        [(['k'], ['v'])]) :=
  ⟨by decide,
    about_link_target "https://projecteuler.net/".data "C".data [(['k'], ['v'])] [['N']]
      'n' "ews".data (by decide)⟩

/-- The claim: when an anchor tag's single-string display text is undefined
(bs4 `Tag.string` is None because the tag has no children or more than one
child), the replacement Markdown link produced by `convert_urls_to_markdown`
uses the literal four-character text "None" as its display text. -/
theorem none_display_text (urlBase cBase : Str) (remote : List (Str × Str)) (link : Link)
    (repl : Str) (remote2 : List (Str × Str))
    (hch : link.children = [] ∨ 2 ≤ link.children.length)
    (hok : processLink urlBase cBase remote link = Except.ok (repl, remote2)) :
    ∃ url, repl = ['[', 'N', 'o', 'n', 'e', ']', '('] ++ url ++ [')'] := by
  have hstr : Link.string link = none := by
    cases hc : link.children with
    | nil => simp [Link.string, hc]
    | cons a t =>
      cases t with
      | nil =>
        rcases hch with h | h
        · rw [hc] at h; cases h
        · rw [hc] at h; simp at h
      | cons b t' => simp [Link.string, hc]
  have hmd : ∀ u, mdLink link u = ['[', 'N', 'o', 'n', 'e', ']', '('] ++ u ++ [')'] := by
    intro u
    simp [mdLink, hstr, pyStr]
  simp only [processLink] at hok
  cases hcm : challenge_match link.href with
  | some n =>
    rw [hcm] at hok
    simp only [Except.ok.injEq, Prod.mk.injEq] at hok
    exact ⟨cBase ++ n, by rw [← hok.1, hmd]⟩
  | none =>
    rw [hcm] at hok
    cases hrm : resource_match link.href with
    | some f =>
      rw [hrm] at hok
      by_cases hk : hasKey remote (sanitise_file_name f) = true
      · simp only [hk, if_true] at hok
        cases hok
      · simp only [Bool.not_eq_true] at hk
        simp only [hk, Bool.false_eq_true, if_false] at hok
        simp only [Except.ok.injEq, Prod.mk.injEq] at hok
        exact ⟨['.', '/'] ++ sanitise_file_name f, by rw [← hok.1, hmd]⟩
    | none =>
      rw [hrm] at hok
      by_cases hab : about_match link.href = true
      · simp only [hab, if_true] at hok
        simp only [Except.ok.injEq, Prod.mk.injEq] at hok
        exact ⟨urlBase ++ link.href, by rw [← hok.1, hmd]⟩
      · simp only [Bool.not_eq_true] at hab
        simp only [hab, Bool.false_eq_true, if_false] at hok
        cases hok

/-- Closed instance of `none_display_text`: an anchor tag with no children
whose href is "about=news" produces the replacement "[None](U/about=news)". -/
theorem none_display_text_witness :
    ∃ url, ("[None](U/about=news)".data : Str)
      = ['[', 'N', 'o', 'n', 'e', ']', '('] ++ url ++ [')'] :=
  none_display_text "U/".data "C".data [] ⟨"about=news".data, []⟩
    "[None](U/about=news)".data [] (Or.inl rfl) rfl

theorem matchLit_project_resources (rest : Str) :
    matchLit projectPat (resourcesPat ++ rest) = none := rfl

theorem matchLit_project_images (rest : Str) :
    matchLit projectPat (imagesPat ++ rest) = none := rfl

theorem matchLit_resources_images (rest : Str) :
    matchLit resourcesPat (imagesPat ++ rest) = none := rfl

theorem afterDirQ_project_none (rest : Str) : afterDirQ (projectPat ++ rest) = none := rfl

theorem lastSlashAux_none : ∀ (l : Str), (∀ c ∈ l, c ≠ '/') → lastSlashAux l = none := by
  intro l
  induction l with
  | nil => intro _; rfl
  | cons c rest ih =>
    intro h
    simp only [lastSlashAux]
    rw [ih (fun x hx => h x (List.mem_cons_of_mem c hx))]
    rw [if_neg]
    intro hand
    exact h c (List.mem_cons_self c rest) hand.1

theorem lastSlashAux_last : ∀ (xs f : Str), f ≠ [] → (∀ c ∈ f, c ≠ '/') →
    lastSlashAux (xs ++ '/' :: f) = some f := by
  intro xs
  induction xs with
  | nil =>
    intro f hne hf
    simp only [List.nil_append, lastSlashAux]
    rw [lastSlashAux_none f hf]
    simp [hne]
  | cons x xs ih =>
    intro f hne hf
    simp only [List.cons_append, lastSlashAux, List.append_eq]
    rw [ih f hne hf]

theorem filename_of_eq (path fname : Str) (hne : fname ≠ [])
    (hfc : ∀ c ∈ fname, c ≠ '/' ∧ c ≠ '\n')
    (hpath : path = [] ∨ ∃ q, q ≠ [] ∧ (∀ c ∈ q, c ≠ '\n') ∧ path = q ++ ['/']) :
    filename_of (path ++ fname) = some fname := by
  have hnl : ∀ c ∈ path ++ fname, (c != '\n') = true := by
    intro c hc
    rw [bne_iff_ne]
    rcases List.mem_append.mp hc with h | h
    · rcases hpath with hp | ⟨q, _, hq, hp⟩
      · rw [hp] at h; cases h
      · rw [hp] at h
        rcases List.mem_append.mp h with h2 | h2
        · exact hq c h2
        · simp only [List.mem_singleton] at h2
          rw [h2]; decide
    · exact (hfc c h).2
  simp only [filename_of]
  rw [takeWhile_eq_self_of_all _ _ hnl]
  rcases hpath with hp | ⟨q, hqne, _, hp⟩
  · subst hp
    simp only [List.nil_append]
    cases fname with
    | nil => exact absurd rfl hne
    | cons f0 frest =>
      show (match lastSlashAux frest with
        | some f => some f
        | none => some (f0 :: frest)) = some (f0 :: frest)
      rw [lastSlashAux_none frest (fun x hx => (hfc x (List.mem_cons_of_mem f0 hx)).1)]
  · subst hp
    cases q with
    | nil => exact absurd rfl hqne
    | cons q0 qrest =>
      have heq : ((q0 :: qrest) ++ ['/']) ++ fname = q0 :: (qrest ++ '/' :: fname) := by
        simp
      rw [heq]
      show (match lastSlashAux (qrest ++ '/' :: fname) with
        | some f => some f
        | none => some (q0 :: (qrest ++ '/' :: fname))) = some fname
      rw [lastSlashAux_last qrest fname hne (fun x hx => (hfc x hx).1)]

theorem resourceTail_dir (dirPart r : Str)
    (hdir : dirPart = resourcesPat ∨ dirPart = imagesPat) :
    resourceTail (dirPart ++ r) = filename_of r := by
  rcases hdir with h | h <;> subst h
  · simp only [resourceTail, afterDirQ, matchLit_self]
  · simp only [resourceTail, afterDirQ, matchLit_resources_images, matchLit_self]

theorem resource_match_eq (projPart dirPart r : Str)
    (hproj : projPart = [] ∨ projPart = projectPat)
    (hdir : dirPart = resourcesPat ∨ dirPart = imagesPat) :
    resource_match (projPart ++ (dirPart ++ r)) = filename_of r := by
  rcases hproj with h | h <;> subst h
  · simp only [List.nil_append, resource_match]
    have hm : matchLit projectPat (dirPart ++ r) = none := by
      rcases hdir with h2 | h2 <;> subst h2
      · exact matchLit_project_resources r
      · exact matchLit_project_images r
    rw [hm, resourceTail_dir dirPart r hdir]
  · simp only [resource_match, matchLit_self]
    rw [resourceTail_dir dirPart r hdir]
    cases hf : filename_of r with
    | some f => rfl
    | none =>
      simp only [resourceTail, afterDirQ_project_none]

/-- The claim: a href matching the resource pattern (optional "project/",
then "resources" or "images", then "/", then an optional nested path, then a
file name) is rewritten to the local target "./" followed by the sanitised
file name, and the entry mapping the sanitised file name to the remote base
URL concatenated with the original href is appended to the remote-content
dictionary (provided, per the collision safeguard, the sanitised name is not
already a key). -/
theorem resource_link_rewrite (urlBase cBase : Str) (remote : List (Str × Str))
    (children : List Str) (projPart dirPart path fname : Str)
    (hproj : projPart = [] ∨ projPart = projectPat)
    (hdir : dirPart = resourcesPat ∨ dirPart = imagesPat)
    (hne : fname ≠ []) (hfc : ∀ c ∈ fname, c ≠ '/' ∧ c ≠ '\n')
    (hpath : path = [] ∨ ∃ q, q ≠ [] ∧ (∀ c ∈ q, c ≠ '\n') ∧ path = q ++ ['/'])
    (hcol : hasKey remote (sanitise_file_name fname) = false) :
    processLink urlBase cBase remote ⟨projPart ++ (dirPart ++ (path ++ fname)), children⟩ =
      Except.ok (mdLink ⟨projPart ++ (dirPart ++ (path ++ fname)), children⟩
          (['.', '/'] ++ sanitise_file_name fname),
        remote ++ [(sanitise_file_name fname,
          urlBase ++ (projPart ++ (dirPart ++ (path ++ fname))))]) := by
  have hch : challenge_match (projPart ++ (dirPart ++ (path ++ fname))) = none := by
    rcases hproj with h | h <;> subst h
    · rcases hdir with h2 | h2 <;> subst h2
      · exact challenge_match_resources _
      · exact challenge_match_images _
    · exact challenge_match_project _
  have hrm : resource_match (projPart ++ (dirPart ++ (path ++ fname))) = some fname := by
    rw [resource_match_eq projPart dirPart (path ++ fname) hproj hdir]
    exact filename_of_eq path fname hne hfc hpath
  simp only [processLink, hch, hrm, hcol, Bool.false_eq_true, if_false]

/-- Closed instance of `resource_link_rewrite` at the href
"project/resources/img/plot.png" with an empty dictionary: the link target
becomes "./plot.png" and the entry (plot.png, base ++ href) is recorded. -/
theorem resource_link_rewrite_witness :
    hasKey [] (sanitise_file_name "plot.png".data) = false ∧
    processLink "https://projecteuler.net/".data "C".data []
        ⟨projectPat ++ (resourcesPat ++ (("img".data ++ ['/']) ++ "plot.png".data)), [['p']]⟩ =
      Except.ok (mdLink ⟨projectPat ++ (resourcesPat ++ (("img".data ++ ['/']) ++ "plot.png".data)),
          [['p']]⟩ (['.', '/'] ++ sanitise_file_name "plot.png".data),
        [] ++ [(sanitise_file_name "plot.png".data,
          "https://projecteuler.net/".data ++
            (projectPat ++ (resourcesPat ++ (("img".data ++ ['/']) ++ "plot.png".data))))]) :=
  ⟨rfl,
    resource_link_rewrite "https://projecteuler.net/".data "C".data [] [['p']]
      projectPat resourcesPat ("img".data ++ ['/']) "plot.png".data
      (Or.inr rfl) (Or.inl rfl) (by decide) (by decide)
      (Or.inr ⟨"img".data, by decide, by decide, rfl⟩) rfl⟩

/-- The claim: when two resource hyperlinks in one content block have
captured file names that sanitise to the same string, the whole conversion
raises the naming-collision KeyError (whose message names the colliding
file name), it does not return a dictionary at all (so nothing is
overwritten and no single surviving entry is kept), and the remaining links
(`rest`) are never processed: the result does not depend on them. -/
theorem collision_error (urlBase cBase : Str) (l1 l2 : Link) (rest : List Link)
    (f1 f2 : Str)
    (h1c : challenge_match l1.href = none) (h1r : resource_match l1.href = some f1)
    (h2c : challenge_match l2.href = none) (h2r : resource_match l2.href = some f2)
    (hsan : sanitise_file_name f1 = sanitise_file_name f2) :
    convert_urls_to_markdown urlBase cBase (l1 :: l2 :: rest) =
      Except.error (ConvError.keyError (keyErrorText ++ sanitise_file_name f2)) := by
  have hp1 : processLink urlBase cBase [] l1 =
      Except.ok (mdLink l1 (['.', '/'] ++ sanitise_file_name f1),
        [(sanitise_file_name f1, urlBase ++ l1.href)]) := by
    simp only [processLink, h1c, h1r, hasKey, List.any_nil, Bool.false_eq_true, if_false,
      List.nil_append]
  have hp2 : processLink urlBase cBase [(sanitise_file_name f1, urlBase ++ l1.href)] l2 =
      Except.error (ConvError.keyError (keyErrorText ++ sanitise_file_name f2)) := by
    have hk : hasKey [(sanitise_file_name f1, urlBase ++ l1.href)] (sanitise_file_name f2)
        = true := by
      simp [hasKey, hsan]
    simp only [processLink, h2c, h2r, hk, if_true]
  simp only [convert_urls_to_markdown, convLoop, hp1, hp2]

/-- Closed instance of `collision_error`: the hrefs "resources/file.txt" and
"images/file.txt" both sanitise to the file name "file.txt", so the
conversion stops with the KeyError naming "file.txt". -/
theorem collision_error_witness :
    resource_match "resources/file.txt".data = some "file.txt".data ∧
    resource_match "images/file.txt".data = some "file.txt".data ∧
    convert_urls_to_markdown "U/".data "C".data
        [⟨"resources/file.txt".data, [['a']]⟩, ⟨"images/file.txt".data, [['b']]⟩] =
      Except.error (ConvError.keyError (keyErrorText ++ sanitise_file_name "file.txt".data)) :=
  ⟨by decide, by decide,
    collision_error "U/".data "C".data ⟨"resources/file.txt".data, [['a']]⟩
      ⟨"images/file.txt".data, [['b']]⟩ [] "file.txt".data "file.txt".data
      rfl (by decide) rfl (by decide) rfl⟩

/-- The claim: a hyperlink whose href matches none of the three
classification regexes makes the conversion raise the NotImplementedError
whose message is the fixed text followed by the offending href, and the
remaining links are never processed (the result does not depend on `rest`,
and the same holds mid-loop whatever the accumulated dictionary is). -/
theorem unknown_link_error (urlBase cBase : Str) (link : Link) (rest : List Link)
    (remote : List (Str × Str))
    (hc : challenge_match link.href = none) (hr : resource_match link.href = none)
    (ha : about_match link.href = false) :
    convLoop urlBase cBase (link :: rest) remote =
        Except.error (ConvError.notImplementedError (unknownErrorText ++ link.href)) ∧
      convert_urls_to_markdown urlBase cBase (link :: rest) =
        Except.error (ConvError.notImplementedError (unknownErrorText ++ link.href)) := by
  have hp : ∀ rm : List (Str × Str), processLink urlBase cBase rm link =
      Except.error (ConvError.notImplementedError (unknownErrorText ++ link.href)) := by
    intro rm
    simp only [processLink, hc, hr, ha, Bool.false_eq_true, if_false]
  constructor
  · simp only [convLoop, hp remote]
  · simp only [convert_urls_to_markdown, convLoop, hp ([] : List (Str × Str))]

/-- Closed instance of `unknown_link_error` at the href
"mailto:test@example.com" from the spec. -/
theorem unknown_link_error_witness :
    challenge_match "mailto:test@example.com".data = none ∧
    resource_match "mailto:test@example.com".data = none ∧
    about_match "mailto:test@example.com".data = false ∧
    convert_urls_to_markdown "U/".data "C".data
        [⟨"mailto:test@example.com".data, [['m']]⟩] =
      Except.error (ConvError.notImplementedError
        (unknownErrorText ++ "mailto:test@example.com".data)) :=
  ⟨rfl, by decide, rfl,
    (unknown_link_error "U/".data "C".data ⟨"mailto:test@example.com".data, [['m']]⟩ []
      [] rfl (by decide) rfl).2⟩

theorem processLink_classified (urlBase cBase : Str) (remote : List (Str × Str))
    (link : Link) (repl : Str) (remote2 : List (Str × Str))
    (h : processLink urlBase cBase remote link = Except.ok (repl, remote2)) :
    (isResourceRef link = true → remote2.length = remote.length + 1) ∧
      (isResourceRef link = false → remote2 = remote) := by
  simp only [processLink] at h
  cases hcm : challenge_match link.href with
  | some n =>
    rw [hcm] at h
    simp only [Except.ok.injEq, Prod.mk.injEq] at h
    have hres : isResourceRef link = false := by
      simp [isResourceRef, hcm]
    constructor
    · intro ht; rw [hres] at ht; cases ht
    · intro _; exact h.2.symm
  | none =>
    rw [hcm] at h
    cases hrm : resource_match link.href with
    | some f =>
      rw [hrm] at h
      have hres : isResourceRef link = true := by
        simp [isResourceRef, hcm, hrm]
      by_cases hk : hasKey remote (sanitise_file_name f) = true
      · simp only [hk, if_true] at h
        cases h
      · simp only [Bool.not_eq_true] at hk
        simp only [hk, Bool.false_eq_true, if_false] at h
        simp only [Except.ok.injEq, Prod.mk.injEq] at h
        constructor
        · intro _
          rw [← h.2]
          simp
        · intro hf; rw [hres] at hf; cases hf
    | none =>
      rw [hrm] at h
      have hres : isResourceRef link = false := by
        simp [isResourceRef, hrm]
      by_cases hab : about_match link.href = true
      · simp only [hab, if_true] at h
        simp only [Except.ok.injEq, Prod.mk.injEq] at h
        constructor
        · intro ht; rw [hres] at ht; cases ht
        · intro _; exact h.2.symm
      · simp only [Bool.not_eq_true] at hab
        simp only [hab, Bool.false_eq_true, if_false] at h
        cases h

theorem convLoop_resource_count :
    ∀ (links : List Link) (urlBase cBase : Str) (remote : List (Str × Str))
      (repls : List Str) (m : List (Str × Str)),
    convLoop urlBase cBase links remote = Except.ok (repls, m) →
    remote.length ≤ m.length ∧
      (m.length = remote.length ↔ ∀ l ∈ links, isResourceRef l = false) := by
  intro links
  induction links with
  | nil =>
    intro ub cb remote repls m h
    simp only [convLoop, Except.ok.injEq, Prod.mk.injEq] at h
    rw [← h.2]
    exact ⟨Nat.le_refl _, by simp⟩
  | cons link rest ih =>
    intro ub cb remote repls m h
    simp only [convLoop] at h
    cases hp : processLink ub cb remote link with
    | error e => simp [hp] at h
    | ok p =>
      obtain ⟨repl, remote2⟩ := p
      simp only [hp] at h
      cases hcl : convLoop ub cb rest remote2 with
      | error e => simp [hcl] at h
      | ok q =>
        obtain ⟨repls2, m2⟩ := q
        simp only [hcl] at h
        simp only [Except.ok.injEq, Prod.mk.injEq] at h
        have hm : m = m2 := h.2.symm
        subst hm
        have hstep := processLink_classified ub cb remote link repl remote2 hp
        have hrest := ih ub cb remote2 repls2 m hcl
        by_cases hres : isResourceRef link = true
        · have h2 : remote2.length = remote.length + 1 := hstep.1 hres
          constructor
          · calc remote.length ≤ remote.length + 1 := Nat.le_succ _
              _ = remote2.length := h2.symm
              _ ≤ m.length := hrest.1
          · constructor
            · intro hlen
              exfalso
              have : remote.length + 1 ≤ m.length := h2 ▸ hrest.1
              omega
            · intro hall
              exact absurd (hall link (List.mem_cons_self link rest)) (by simp [hres])
        · have hres' : isResourceRef link = false := by
            simpa using hres
          have h2 : remote2 = remote := hstep.2 hres'
          subst h2
          constructor
          · exact hrest.1
          · rw [List.forall_mem_cons]
            constructor
            · intro hlen
              exact ⟨hres', hrest.2.mp hlen⟩
            · intro hall
              exact hrest.2.mpr hall.2

/-- The claim: when `convert_urls_to_markdown` completes without raising, it
returns the absent result (None) exactly when no hyperlink of the content
block was classified as a resource reference, and whenever it returns a
dictionary at all, that dictionary is non-empty — so a caller can
unambiguously tell "no downloads needed" from "manifest with entries". -/
theorem return_contract (urlBase cBase : Str) (links : List Link) (repls : List Str)
    (m : Option (List (Str × Str)))
    (h : convert_urls_to_markdown urlBase cBase links = Except.ok (repls, m)) :
    (m = none ↔ ∀ l ∈ links, isResourceRef l = false) ∧
      (∀ mm, m = some mm → mm ≠ []) := by
  simp only [convert_urls_to_markdown] at h
  cases hcl : convLoop urlBase cBase links [] with
  | error e => simp [hcl] at h
  | ok p =>
    obtain ⟨repls0, m0⟩ := p
    simp only [hcl] at h
    simp only [Except.ok.injEq, Prod.mk.injEq] at h
    have hc := convLoop_resource_count links urlBase cBase [] repls0 m0 hcl
    cases m0 with
    | nil =>
      have hm : m = none := h.2.symm
      subst hm
      constructor
      · simp only [true_iff]
        exact hc.2.mp rfl
      · intro mm hmm; cases hmm
    | cons p0 ps =>
      have hm : m = some (p0 :: ps) := h.2.symm
      subst hm
      constructor
      · constructor
        · intro hx; cases hx
        · intro hall
          exfalso
          have hlen : (p0 :: ps).length = ([] : List (Str × Str)).length := hc.2.mpr hall
          simp at hlen
      · intro mm hmm
        injection hmm with h2
        rw [← h2]
        simp

/-- Closed instance of `return_contract`: a block with a single about-link
yields the absent dictionary, matching the fact that none of its links is a
resource reference. -/
theorem return_contract_witness :
    ((none : Option (List (Str × Str))) = none ↔
      ∀ l ∈ [Link.mk "about=news".data [['N']]], isResourceRef l = false) ∧
      (∀ mm, (none : Option (List (Str × Str))) = some mm → mm ≠ []) :=
  return_contract "U/".data "C".data [Link.mk "about=news".data [['N']]]
    ["[N](U/about=news)".data] none rfl

theorem nlReplace_eq_self : ∀ (l : Str), (∀ c ∈ l, c ≠ '\n') → nlReplace l = l := by
  intro l
  induction l with
  | nil => intro _; rfl
  | cons c rest ih =>
    intro h
    simp only [nlReplace]
    rw [if_neg (h c (List.mem_cons_self c rest))]
    rw [ih (fun x hx => h x (List.mem_cons_of_mem c hx))]

theorem opSub_append_clean : ∀ (p l : Str), (∀ c ∈ p, c ≠ '\\') →
    opSub (p ++ l) = p ++ opSub l := by
  intro p
  induction p with
  | nil => intro l _; simp
  | cons c p' ih =>
    intro l hp
    rw [List.cons_append]
    rw [opSub_cons_of_none c (p' ++ l) (matchOpAt_cons_none c _ (hp c (List.mem_cons_self c p')))]
    rw [ih l (fun x hx => hp x (List.mem_cons_of_mem c hx))]
    simp

theorem opSub_clean : ∀ (l : Str), (∀ c ∈ l, c ≠ '\\') → opSub l = l := by
  intro l
  induction l with
  | nil => intro _; exact opSub_nil
  | cons c rest ih =>
    intro h
    rw [opSub_cons_of_none c rest (matchOpAt_cons_none c rest (h c (List.mem_cons_self c rest)))]
    rw [ih (fun x hx => h x (List.mem_cons_of_mem c hx))]

theorem findB_spec : ∀ (B acc rest : Str), B ≠ [] →
    (∀ c ∈ B, c ≠ '=' ∧ c ≠ '\n') →
    findB acc (B ++ ('=' :: rest)) = some (acc.reverse ++ B, rest) := by
  intro B
  induction B with
  | nil => intro acc rest hne _; exact absurd rfl hne
  | cons b B' ih =>
    intro acc rest _ hB
    have hb := hB b (List.mem_cons_self b B')
    rw [List.cons_append]
    simp only [findB]
    rw [if_neg hb.2]
    rw [if_neg (fun hand => hb.1 hand.1)]
    cases B' with
    | nil =>
      simp only [List.nil_append, findB]
      rw [if_neg (by decide)]
      rw [if_pos (by simp)]
      simp
    | cons b2 B'' =>
      rw [ih (b :: acc) rest (by simp) (fun x hx => hB x (List.mem_cons_of_mem b hx))]
      simp

theorem findAB_spec : ∀ (A acc B rest : Str),
    (A ≠ [] ∨ acc ≠ []) →
    (∀ c ∈ A, c ≠ '\x7d' ∧ c ≠ '\n') →
    B ≠ [] → (∀ c ∈ B, c ≠ '=' ∧ c ≠ '\n') →
    findAB acc (A ++ ('\x7d' :: (B ++ ('=' :: rest)))) = some (acc.reverse ++ A, B, rest) := by
  intro A
  induction A with
  | nil =>
    intro acc B rest hor _ hBne hB
    have hacc : acc ≠ [] := by
      rcases hor with h | h
      · exact absurd rfl h
      · exact h
    simp only [List.nil_append, findAB]
    rw [if_neg (by decide)]
    rw [if_pos (by simp [hacc])]
    rw [findB_spec B [] rest hBne hB]
    simp
  | cons a A' ih =>
    intro acc B rest _ hA hBne hB
    have ha := hA a (List.mem_cons_self a A')
    rw [List.cons_append]
    simp only [findAB]
    rw [if_neg ha.2]
    rw [if_neg (fun hand => ha.1 hand.1)]
    rw [ih (a :: acc) B rest (Or.inr (by simp)) (fun x hx => hA x (List.mem_cons_of_mem a hx))
      hBne hB]
    simp

theorem matchOpAt_spec (A B rest : Str) (hAne : A ≠ [])
    (hA : ∀ c ∈ A, c ≠ '\x7d' ∧ c ≠ '\n')
    (hBne : B ≠ []) (hB : ∀ c ∈ B, c ≠ '=' ∧ c ≠ '\n') :
    matchOpAt (operatornameBracePat ++ (A ++ ('\x7d' :: (B ++ ('=' :: rest)))))
      = some (A, B, rest) := by
  simp only [matchOpAt, matchLit_self]
  rw [findAB_spec A [] B rest (Or.inl hAne) hA hBne hB]
  simp

theorem containsSub_append : ∀ (x needle y : Str),
    containsSub needle (x ++ (needle ++ y)) = true := by
  intro x
  induction x with
  | nil =>
    intro needle y
    rw [List.nil_append]
    cases hsh : needle ++ y with
    | nil =>
      have hn : needle = [] := (List.append_eq_nil.mp hsh).1
      subst hn
      simp [containsSub, matchLit]
    | cons c rest =>
      have hm : matchLit needle (c :: rest) = some y := by
        rw [← hsh]
        exact matchLit_self needle y
      simp [containsSub, hm]
  | cons c x' ih =>
    intro needle y
    rw [List.cons_append]
    cases hm : matchLit needle (c :: (x' ++ (needle ++ y))) with
    | some r => simp [containsSub, hm]
    | none => simp [containsSub, hm, ih needle y]

/-- The claim: with the workaround flag set, every occurrence of the pattern
"\operatorname{A}B=" is rewritten to "\mathop{\text{A}}B=" with the two
captured spans preserved exactly; matching is non-greedy, terminating at the
first closing brace after A and the first equals sign after B (hence the
side conditions that A contains no closing brace and B no equals sign, and,
as `.` never matches a newline, that the spans are newline-free).  `pre` and
`post` (backslash- and newline-free) show the rewrite acting inside larger
text and leaving the surroundings untouched. -/
theorem operatorname_rewrite (pre A B post : Str)
    (hpre : ∀ c ∈ pre, c ≠ '\\' ∧ c ≠ '\n')
    (hAne : A ≠ []) (hA : ∀ c ∈ A, c ≠ '\x7d' ∧ c ≠ '\n')
    (hBne : B ≠ []) (hB : ∀ c ∈ B, c ≠ '=' ∧ c ≠ '\n')
    (hpost : ∀ c ∈ post, c ≠ '\\' ∧ c ≠ '\n') :
    sanitise_tag_text (pre ++ (operatornameBracePat ++ (A ++ ('\x7d' :: (B ++ ('=' :: post)))))) true
      = pre ++ (mathopPat ++ A ++ ['\x7d', '\x7d'] ++ B ++ ['='] ++ post) := by
  have hnl : ∀ c ∈ pre ++ (operatornameBracePat ++ (A ++ ('\x7d' :: (B ++ ('=' :: post))))),
      c ≠ '\n' := by
    intro c hc
    simp only [List.mem_append, List.mem_cons] at hc
    rcases hc with h | h | h | rfl | h | rfl | h
    · exact (hpre c h).2
    · exact (by decide : ∀ x ∈ operatornameBracePat, x ≠ '\n') c h
    · exact (hA c h).2
    · decide
    · exact (hB c h).2
    · decide
    · exact (hpost c h).2
  have hcontains : containsSub operatornamePat
      (pre ++ (operatornameBracePat ++ (A ++ ('\x7d' :: (B ++ ('=' :: post)))))) = true := by
    have hshape : pre ++ (operatornameBracePat ++ (A ++ ('\x7d' :: (B ++ ('=' :: post)))))
        = pre ++ (operatornamePat ++ ('\x7b' :: (A ++ ('\x7d' :: (B ++ ('=' :: post)))))) := by
      simp [operatornameBracePat]
    rw [hshape]
    exact containsSub_append pre operatornamePat _
  simp only [sanitise_tag_text]
  rw [nlReplace_eq_self _ hnl]
  rw [hcontains]
  simp only [Bool.and_self, if_true]
  rw [opSub_append_clean pre _ (fun x hx => (hpre x hx).1)]
  rw [opSub_cons_of_some _ A B post (matchOpAt_spec A B post hAne hA hBne hB)]
  rw [opSub_clean post (fun x hx => (hpost x hx).1)]

/-- Closed instance of `operatorname_rewrite`: the spec's example
"\operatorname{foo}(x)=" becomes "\mathop{\text{foo}}(x)=" with the spans
"foo" and "(x)" preserved exactly. -/
theorem operatorname_rewrite_witness :
    (("foo".data : Str) ≠ [] ∧ ("(x)".data : Str) ≠ []) ∧
    sanitise_tag_text
        ([] ++ (operatornameBracePat ++ ("foo".data ++ ('\x7d' :: ("(x)".data ++ ('=' :: []))))))
        true
      = [] ++ (mathopPat ++ "foo".data ++ ['\x7d', '\x7d'] ++ "(x)".data ++ ['='] ++ []) :=
  ⟨⟨by decide, by decide⟩,
    operatorname_rewrite [] "foo".data "(x)".data []
      (by decide) (by decide) (by decide) (by decide) (by decide) (by decide)⟩
